import Mathlib

/-!
Verification of the Microsoft-skills sync scripts
(`scripts/sync_microsoft_skills.py` and the two diagnostic scripts under
`scripts/tests/`).

The scripts operate on a fetched directory tree.  We embed that tree as a
finite list of entries, each a directory, a regular file, or a symbolic
link carrying its fully resolved target (`none` for a broken link).  All
paths are segment lists relative to the fetched repository root; the empty
list denotes the root itself.  The order of `FS.entries` is the order in
which `iterdir` / `rglob` enumerate the tree (Python guarantees no
particular order, so the model takes it as given; `rglob` does not descend
through symlinked directories, hence a tree never lists entries below a
link path).  Output paths are segment lists relative to the output root
(`TARGET_DIR` in the script).
-/

namespace MsSync

abbrev Path := List String

inductive EKind where
  | dir : EKind
  | file : EKind
  | link : Option Path → EKind
deriving DecidableEq, Repr

structure Entry where
  path : Path
  kind : EKind
deriving DecidableEq, Repr

structure FS where
  entries : List Entry
deriving DecidableEq, Repr

/-- The marker file name identifying a skill directory. -/
def marker : String := "SKILL.md"

/-- The organizational root `skills/` of the fetched tree. -/
def skillsRoot : Path := ["skills"]

/-- The primary flat location `.github/skills/`. -/
def githubSkills : Path := [".github", "skills"]

/-- The recursive plugin location `.github/plugins/`. -/
def pluginsRoot : Path := [".github", "plugins"]

/-- The output sub-root `official/microsoft/` under `TARGET_DIR`. -/
def officialRoot : Path := ["official", "microsoft"]

/-- Last path segment, i.e. `pathlib.PurePath.name`. -/
def lastSeg (p : Path) : String := p.getLastD ("")

/-- String form of a relative path, i.e. `str(PurePosixPath(p))` for nonempty `p`. -/
def joinPath (p : Path) : String := String.intercalate ("/") p

/-- String form of the parent of a nonempty relative path:
`str(p.parent)` is the joined init of `p`, or the string of one dot when `p`
has a single segment (`PurePath("a").parent` is the dot path). -/
def parentStr (rel : Path) : String :=
  if rel.dropLast = [] then (".") else joinPath rel.dropLast

/-- There is a real (non-link) directory entry at `p`. -/
def FS.isRealDir (fs : FS) (p : Path) : Bool :=
  fs.entries.any (fun e => decide (e.path = p ∧ e.kind = EKind.dir))

/-- There is a regular-file entry at `p`. -/
def FS.isRealFile (fs : FS) (p : Path) : Bool :=
  fs.entries.any (fun e => decide (e.path = p ∧ e.kind = EKind.file))

/-- The first (with well-formedness: the unique) entry recorded at `p`. -/
def FS.entryAt (fs : FS) (p : Path) : Option Entry :=
  fs.entries.find? (fun e => decide (e.path = p))

/-- `pathlib.Path.exists()`: true for a directory or regular file at `p`, and
for a symlink at `p` whose resolved target carries a real entry. -/
def FS.pathExists (fs : FS) (p : Path) : Bool :=
  match fs.entryAt p with
  | some ⟨_, EKind.dir⟩ => true
  | some ⟨_, EKind.file⟩ => true
  | some ⟨_, EKind.link (some t)⟩ =>
      match fs.entryAt t with
      | some ⟨_, EKind.dir⟩ => true
      | some ⟨_, EKind.file⟩ => true
      | _ => false
  | _ => false

/-- `entry.is_dir()` (follows symlinks): a real directory, or a live link
whose resolved target is a real directory. -/
def FS.entryIsDir (fs : FS) (e : Entry) : Bool :=
  match e.kind with
  | EKind.dir => true
  | EKind.link (some t) => fs.isRealDir t
  | _ => false

/-- `entry.is_file()` (follows symlinks). -/
def FS.entryIsFile (fs : FS) (e : Entry) : Bool :=
  match e.kind with
  | EKind.file => true
  | EKind.link (some t) => fs.isRealFile t
  | _ => false

/-- `(entry / "SKILL.md").exists()`: the marker lookup goes through the
entry when it is a live symlink (the joined path resolves through it). -/
def FS.entryMarkerExists (fs : FS) (e : Entry) : Bool :=
  match e.kind with
  | EKind.dir => fs.pathExists (e.path ++ [marker])
  | EKind.link (some t) => fs.pathExists (t ++ [marker])
  | _ => false

/-- The entries directly inside directory `d` (`iterdir` of a real dir). -/
def FS.childEntries (fs : FS) (d : Path) : List Entry :=
  fs.entries.filter (fun e => decide (e.path.dropLast = d ∧ e.path ≠ []))

/-- The entries strictly below `r` (`rglob("*")` from `r`; the entry
list already reflects that the walk does not descend through symlinks). -/
def FS.underDir (fs : FS) (r : Path) : List Entry :=
  fs.entries.filter (fun e => decide (e.path.take r.length = r ∧ e.path ≠ r))

/-- Well-formedness of a fetched tree, the facts any real filesystem
snapshot satisfies: entry paths are distinct, every entry sits inside a
real directory (the root `[]` being its own parent), and marker-named
entries are regular files (`shutil.copy2` requires a readable regular
source; the script is only run on trees whose `SKILL.md` are plain files). -/
def FS.WF (fs : FS) : Prop :=
  (fs.entries.map Entry.path).Nodup ∧
  (∀ e ∈ fs.entries, fs.isRealDir e.path.dropLast = true) ∧
  (∀ e ∈ fs.entries, e.path.getLast? = some marker → e.kind = EKind.file)

instance : DecidablePred FS.WF := fun fs => by
  unfold FS.WF; infer_instance

/-- One per-skill metadata record accumulated by the sync
(`skill_metadata.append({...})` in the script); the flat fallback emits no
`source` field, modelled as `none`. -/
structure SkillMeta where
  path : String
  name : String
  category : String
  source : Option String
deriving DecidableEq, Repr

/-- One skill placement performed by the sync: the created output
directory, the file copies `(source, destination)` in order, and the
metadata record appended for it. -/
structure Placement where
  target : Path
  copies : List (Path × Path)
  minfo : SkillMeta
deriving DecidableEq, Repr

/-- The copy step shared by all three passes (lines 101-107, 128-134 and
178-184 of the script): copy the marker file, then every other regular
file directly inside the resolved source directory, into `tgt`. -/
def copyFilesFrom (fs : FS) (src tgt : Path) : List (Path × Path) :=
  (src ++ [marker], tgt ++ [marker]) ::
    ((fs.childEntries src).filter (fun e =>
        decide (e.path.getLast? ≠ some marker) && fs.entryIsFile e)).map
      (fun e => (e.path, tgt ++ [lastSeg e.path]))

/-- Skill detection of the structure-preserving walk (lines 66-88): skip
non-directories; a symlink is resolved and its target checked for the
marker, a real directory is checked directly.  A broken link fails
`is_dir()` and is skipped silently. -/
def detectSkill (fs : FS) (e : Entry) : Option Path :=
  match e.kind with
  | EKind.file => none
  | EKind.link none => none
  | EKind.link (some t) =>
      if fs.isRealDir t then
        if fs.pathExists (t ++ [marker]) then some t else none
      else none
  | EKind.dir =>
      if fs.pathExists (e.path ++ [marker]) then some e.path else none

/-- The placement built for one walked entry (lines 90-118).  `e` ranges
over entries below `skills/`, so `relative_to(skills_source)` is the tail
after the one-segment root and never raises. -/
def structurePlacement (fs : FS) (e : Entry) : Option Placement :=
  match detectSkill fs e with
  | none => none
  | some srcDir =>
      some { target := officialRoot ++ e.path.drop 1
             copies := copyFilesFrom fs srcDir (officialRoot ++ e.path.drop 1)
             minfo := { path := joinPath (e.path.drop 1)
                        name := lastSeg e.path
                        category := parentStr (e.path.drop 1)
                        source := some (joinPath srcDir) } }

/-- The structure-preserving pass: walk everything below `skills/` and keep
the qualifying placements. -/
def structurePass (fs : FS) : List Placement :=
  (fs.underDir skillsRoot).filterMap (structurePlacement fs)

/-- `find_plugin_skills` (lines 148-165): every marker file anywhere below
`.github/plugins/` names a skill by its containing directory; those whose
name was already recorded are dropped.  The name set is computed once and
not updated while scanning. -/
def find_plugin_skills (fs : FS) (already_synced : List SkillMeta) :
    List (String × Path) :=
  (fs.underDir pluginsRoot).filterMap (fun e =>
    if e.path.getLast? = some marker then
      if lastSeg e.path.dropLast ∈ already_synced.map SkillMeta.name then none
      else some (lastSeg e.path.dropLast, e.path.dropLast)
    else none)

/-- The placement of one supplemental plugin skill (lines 124-144). -/
def pluginPlacement (fs : FS) (q : String × Path) : Placement :=
  { target := officialRoot ++ ["plugins", q.1]
    copies := copyFilesFrom fs q.2 (officialRoot ++ ["plugins", q.1])
    minfo := { path := String.append ("plugins/") q.1
               name := q.1
               category := "plugins"
               source := some (joinPath q.2) } }

/-- Python-dict assignment `m[k] = v`: replace in place when the key is
present, append otherwise. -/
def dictInsertReplace (m : List (String × Path)) (k : String) (v : Path) :
    List (String × Path) :=
  if m.any (fun kv => decide (kv.1 = k)) then
    m.map (fun kv => if kv.1 = k then (k, v) else kv)
  else m ++ [(k, v)]

/-- `find_all_skills` (lines 24-44): the flat mapping from skill name to
source directory.  Phase 1 scans the immediate children of
`.github/skills/`; phase 2 adds marker hits below `.github/plugins/` only
under fresh names.  When either location is absent its scan is empty. -/
def find_all_skills (fs : FS) : List (String × Path) :=
  let phase1 := (fs.childEntries githubSkills).foldl
    (fun m e =>
      if fs.entryIsDir e && fs.entryMarkerExists e then
        dictInsertReplace m (lastSeg e.path) e.path
      else m) []
  (fs.underDir pluginsRoot).foldl
    (fun m e =>
      if decide (e.path.getLast? = some marker) then
        if m.any (fun kv => decide (kv.1 = lastSeg e.path.dropLast)) then m
        else m ++ [(lastSeg e.path.dropLast, e.path.dropLast)]
      else m) phase1

/-- Resolve a flat-mapping source directory for copying: `iterdir` on a
symlink path enumerates the resolved directory, and `copy2` reads through
the link, so the copies are drawn from the resolved real directory. -/
def flatPlacement (fs : FS) (q : String × Path) : Placement :=
  { target := officialRoot ++ [q.1]
    copies := copyFilesFrom fs
      (match fs.entryAt q.2 with
       | some ⟨_, EKind.link (some t)⟩ => t
       | _ => q.2)
      (officialRoot ++ [q.1])
    minfo := { path := q.1, name := q.1, category := "root", source := none } }

/-- `sync_skills_flat` (lines 167-195): the fallback used when `skills/`
is absent; every flat-mapping skill goes directly under the output root. -/
def sync_skills_flat (fs : FS) : List Placement :=
  (find_all_skills fs).map (flatPlacement fs)

/-- `sync_skills_preserve_structure` (lines 46-146): the structure
 pass followed by the supplemental plugin pass, or the flat fallback when
`skills/` does not exist. -/
def sync_skills_preserve_structure (fs : FS) : List Placement :=
  if fs.pathExists skillsRoot then
    structurePass fs ++
      (find_plugin_skills fs ((structurePass fs).map Placement.minfo)).map
        (pluginPlacement fs)
  else sync_skills_flat fs

/-- The skill directories created (`mkdir(parents=True, exist_ok=True)`),
in order, one per placement. -/
def createdDirs (ps : List Placement) : List Path := ps.map Placement.target

/-- All file copies performed, in order. -/
def copiedFiles (ps : List Placement) : List (Path × Path) :=
  ps.flatMap Placement.copies

/-- The accumulated `skill_metadata` list. -/
def syncMetadata (ps : List Placement) : List SkillMeta :=
  ps.map Placement.minfo

/-- The `synced_count` returned by the sync: incremented once per placement. -/
def syncCount (ps : List Placement) : Nat := ps.length

/-- The ATTRIBUTION.json document. -/
structure Attribution where
  source : String
  repository : String
  license : String
  synced_skills : Nat
  skills : List SkillMeta
  note : String
deriving DecidableEq, Repr

/-- `create_attribution_file` (lines 197-212). -/
def create_attribution_file (metadata : List SkillMeta) : Attribution :=
  { source := "microsoft/skills"
    repository := "https://github.com/microsoft/skills"
    license := "MIT"
    synced_skills := metadata.length
    skills := metadata
    note := "Symlinks resolved and content copied for compatibility. Original directory structure preserved." }

/-- `copy_documentation` (lines 214-223): LICENSE verbatim, README renamed. -/
def copy_documentation (fs : FS) : List (Path × Path) :=
  (if fs.pathExists ["LICENSE"] then
      [(["LICENSE"], officialRoot ++ ["LICENSE"])] else []) ++
  (if fs.pathExists ["README.md"] then
      [(["README.md"], officialRoot ++ ["README-MICROSOFT.md"])] else [])

/-- Observable effect of one `main()` run of the sync script on the output
directory, as a function of the outcome of the clone step.  `clone_repo` runs
`git clone` with `check=True` and is the first statement of the `try`
block, so a clone failure reaches the `except` handler (which returns 1)
before any target-directory operation executes. -/
structure MainResult where
  exitCode : Nat
  dirsMade : List Path
  copies : List (Path × Path)
  attributionWritten : Option Attribution
deriving Repr

/-- `main` (lines 225-282) followed by `exit(main())`. -/
def main_sync (clone : Except String FS) : MainResult :=
  match clone with
  | Except.error _ =>
      { exitCode := 1, dirsMade := [], copies := [], attributionWritten := none }
  | Except.ok fs =>
      let ps := sync_skills_preserve_structure fs
      { exitCode := 0
        dirsMade := [] :: createdDirs ps ++ [officialRoot, officialRoot]
        copies := copiedFiles ps ++ copy_documentation fs
        attributionWritten := some (create_attribution_file (syncMetadata ps)) }

/-- Outcome of a script body: normal completion or a caught exception. -/
inductive RunOutcome where
  | ok : RunOutcome
  | exn : String → RunOutcome

/-- Exit status of `sync_microsoft_skills.py`: `exit(main())`, where
`main` returns 0 on success and 1 from its `except` handler. -/
def sync_script_exit : RunOutcome → Nat
  | RunOutcome.ok => 0
  | RunOutcome.exn _ => 1

/-- Exit status of `tests/inspect_microsoft_repo.py`: its top-level
`except` handler prints the error and trace and falls off the end of the
module, so the interpreter exits with status 0 either way. -/
def inspect_script_exit : RunOutcome → Nat
  | RunOutcome.ok => 0
  | RunOutcome.exn _ => 0

/-- Exit status of `tests/test_comprehensive_coverage.py`: same shape as
the inspect script, the handler prints and the process exits 0. -/
def coverage_script_exit : RunOutcome → Nat
  | RunOutcome.ok => 0
  | RunOutcome.exn _ => 0

/-- State of the files of the output tree: destination path to the source path
whose bytes the file currently holds (`copy2` sets destination bytes to
the bytes of the source file; against an unchanged source, equal source paths
mean equal bytes). -/
def OutFS := Path → Option Path

/-- A small fetched tree: one real skill directory `skills/cat/writer`
holding the marker and a sibling `notes.md`. -/
def fsA : FS :=
  ⟨[ ⟨[], EKind.dir⟩
   , ⟨["skills"], EKind.dir⟩
   , ⟨["skills", "cat"], EKind.dir⟩
   , ⟨["skills", "cat", "writer"], EKind.dir⟩
   , ⟨["skills", "cat", "writer", "SKILL.md"], EKind.file⟩
   , ⟨["skills", "cat", "writer", "notes.md"], EKind.file⟩ ]⟩

/-- A tree whose two plugin skills share the base name `foo` under
different parents; `skills/` exists but is empty. -/
def fsB : FS :=
  ⟨[ ⟨[], EKind.dir⟩
   , ⟨["skills"], EKind.dir⟩
   , ⟨[".github"], EKind.dir⟩
   , ⟨[".github", "plugins"], EKind.dir⟩
   , ⟨[".github", "plugins", "a"], EKind.dir⟩
   , ⟨[".github", "plugins", "a", "foo"], EKind.dir⟩
   , ⟨[".github", "plugins", "a", "foo", "SKILL.md"], EKind.file⟩
   , ⟨[".github", "plugins", "b"], EKind.dir⟩
   , ⟨[".github", "plugins", "b", "foo"], EKind.dir⟩
   , ⟨[".github", "plugins", "b", "foo", "SKILL.md"], EKind.file⟩ ]⟩

/-- A tree with two structural skills of the same base name `tool` in
different categories. -/
def fsC : FS :=
  ⟨[ ⟨[], EKind.dir⟩
   , ⟨["skills"], EKind.dir⟩
   , ⟨["skills", "a"], EKind.dir⟩
   , ⟨["skills", "a", "tool"], EKind.dir⟩
   , ⟨["skills", "a", "tool", "SKILL.md"], EKind.file⟩
   , ⟨["skills", "b"], EKind.dir⟩
   , ⟨["skills", "b", "tool"], EKind.dir⟩
   , ⟨["skills", "b", "tool", "SKILL.md"], EKind.file⟩ ]⟩

/-- A tree without the organizational root `skills/`: one skill in the
primary flat location `.github/skills/`. -/
def fsD : FS :=
  ⟨[ ⟨[], EKind.dir⟩
   , ⟨[".github"], EKind.dir⟩
   , ⟨[".github", "skills"], EKind.dir⟩
   , ⟨[".github", "skills", "writer"], EKind.dir⟩
   , ⟨[".github", "skills", "writer", "SKILL.md"], EKind.file⟩ ]⟩

/-- A tree where a plugin directory `realname` is symlinked into the
organizational tree under the different name `alias`. -/
def fsE : FS :=
  ⟨[ ⟨[], EKind.dir⟩
   , ⟨["skills"], EKind.dir⟩
   , ⟨["skills", "cat"], EKind.dir⟩
   , ⟨["skills", "cat", "alias"],
       EKind.link (some [".github", "plugins", "x", "realname"])⟩
   , ⟨[".github"], EKind.dir⟩
   , ⟨[".github", "plugins"], EKind.dir⟩
   , ⟨[".github", "plugins", "x"], EKind.dir⟩
   , ⟨[".github", "plugins", "x", "realname"], EKind.dir⟩
   , ⟨[".github", "plugins", "x", "realname", "SKILL.md"], EKind.file⟩ ]⟩

/-- A tree with one skill directly at depth one under `skills/`. -/
def fsF : FS :=
  ⟨[ ⟨[], EKind.dir⟩
   , ⟨["skills"], EKind.dir⟩
   , ⟨["skills", "writer"], EKind.dir⟩
   , ⟨["skills", "writer", "SKILL.md"], EKind.file⟩ ]⟩

/-- An output state holding one stale file absent upstream. -/
def outO : OutFS :=
  fun p => if p = ["stale.md"] then some ["old"] else none

/-- The last copy writing destination `p`, if any. -/
def lookupLast (ws : List (Path × Path)) (p : Path) : Option Path :=
  ((ws.filter (fun w => decide (w.2 = p))).getLast?).map Prod.fst

/-- Apply a copy sequence to an output state: each destination ends up
holding the bytes of the last copy into it; untouched files keep their
content; nothing is ever deleted. -/
def applyCopies (ws : List (Path × Path)) (o : OutFS) : OutFS :=
  fun p =>
    match lookupLast ws p with
    | some s => some s
    | none => o p

/-! Helper lemmas about the filesystem model. -/

theorem isRealDir_exists {fs : FS} {p : Path} (h : fs.isRealDir p = true) :
    ∃ e, e ∈ fs.entries ∧ e.path = p ∧ e.kind = EKind.dir := by
  unfold FS.isRealDir at h
  rw [List.any_eq_true] at h
  obtain ⟨e, he, hdec⟩ := h
  exact ⟨e, he, of_decide_eq_true hdec⟩

theorem find_path_of_nodup :
    ∀ (l : List Entry), (l.map Entry.path).Nodup → ∀ {e : Entry}, e ∈ l →
      l.find? (fun x => decide (x.path = e.path)) = some e := by
  intro l
  induction l with
  | nil => intro _ e he; cases he
  | cons a l ih =>
    intro h e he
    rw [List.map_cons, List.nodup_cons] at h
    rcases List.mem_cons.mp he with rfl | htail
    · exact List.find?_cons_of_pos l (by simp)
    · have hne : ¬ (a.path = e.path) := by
        intro hEq
        exact h.1 (hEq ▸ List.mem_map_of_mem Entry.path htail)
      rw [List.find?_cons_of_neg l (by simpa using hne)]
      exact ih h.2 htail

theorem entryAt_of_mem {fs : FS} (h1 : (fs.entries.map Entry.path).Nodup)
    {e : Entry} (he : e ∈ fs.entries) : fs.entryAt e.path = some e :=
  find_path_of_nodup fs.entries h1 he

theorem pathExists_of_isRealDir {fs : FS} (h1 : (fs.entries.map Entry.path).Nodup)
    {p : Path} (h : fs.isRealDir p = true) : fs.pathExists p = true := by
  obtain ⟨e, he, hp, hk⟩ := isRealDir_exists h
  have hAt : fs.entryAt p = some e := by rw [← hp]; exact entryAt_of_mem h1 he
  obtain ⟨p2, k⟩ := e
  unfold FS.pathExists
  rw [hAt]
  simp only at hk
  subst hk
  rfl

theorem pathExists_mem {fs : FS} {p : Path} (h : fs.pathExists p = true) :
    ∃ e, e ∈ fs.entries ∧ e.path = p := by
  unfold FS.pathExists at h
  cases hfind : fs.entryAt p with
  | none => rw [hfind] at h; simp at h
  | some e =>
    unfold FS.entryAt at hfind
    have hsome : (fun x => decide (x.path = p)) e = true :=
      @List.find?_some Entry (fun x => decide (x.path = p)) e fs.entries hfind
    exact ⟨e, List.mem_of_find?_eq_some hfind, of_decide_eq_true hsome⟩

theorem wf_take_dir (fs : FS)
    (h2 : ∀ e ∈ fs.entries, fs.isRealDir e.path.dropLast = true) :
    ∀ (n : Nat) (e : Entry), e ∈ fs.entries → e.path.length ≤ n →
      ∀ k, k < e.path.length → fs.isRealDir (e.path.take k) = true := by
  intro n
  induction n with
  | zero => intro e he hlen k hk; omega
  | succ n ih =>
    intro e he hlen k hk
    have hd := h2 e he
    rcases Nat.lt_or_ge k (e.path.length - 1) with hlt | hge
    · obtain ⟨e1, he1, hpath, _⟩ := isRealDir_exists hd
      have hlen1 : e1.path.length = e.path.length - 1 := by
        rw [hpath, List.length_dropLast]
      have htk : e.path.take k = e1.path.take k := by
        rw [hpath, List.dropLast_eq_take, List.take_take,
          Nat.min_eq_left (by omega)]
      rw [htk]
      exact ih e1 he1 (by omega) k (by omega)
    · have hk1 : k = e.path.length - 1 := by omega
      rw [hk1, ← List.dropLast_eq_take]
      exact hd

theorem cons_of_take_one {p : Path} {s : String} (h : p.take 1 = [s]) :
    ∃ t, p = s :: t := by
  cases p with
  | nil => simp at h
  | cons a t =>
    simp [List.take] at h
    exact ⟨t, by rw [h]⟩

theorem mem_underDir {fs : FS} {r : Path} {e : Entry} :
    e ∈ fs.underDir r ↔
      e ∈ fs.entries ∧ e.path.take r.length = r ∧ e.path ≠ r := by
  unfold FS.underDir
  simp [List.mem_filter]

theorem mem_childEntries {fs : FS} {d : Path} {e : Entry} :
    e ∈ fs.childEntries d ↔
      e ∈ fs.entries ∧ e.path.dropLast = d ∧ e.path ≠ [] := by
  unfold FS.childEntries
  simp [List.mem_filter]

theorem sync_eq_of_skills_exists {fs : FS} (h : fs.pathExists skillsRoot = true) :
    sync_skills_preserve_structure fs
      = structurePass fs ++
          (find_plugin_skills fs ((structurePass fs).map Placement.minfo)).map
            (pluginPlacement fs) := by
  unfold sync_skills_preserve_structure
  simp [h]

theorem structurePlacement_eq {fs : FS} {e : Entry} {src : Path}
    (h : detectSkill fs e = some src) :
    structurePlacement fs e = some
      { target := officialRoot ++ e.path.drop 1
        copies := copyFilesFrom fs src (officialRoot ++ e.path.drop 1)
        minfo := { path := joinPath (e.path.drop 1)
                   name := lastSeg e.path
                   category := parentStr (e.path.drop 1)
                   source := some (joinPath src) } } := by
  unfold structurePlacement
  rw [h]

theorem find_plugin_name_not_synced {fs : FS} {a : List SkillMeta}
    {q : String × Path} (h : q ∈ find_plugin_skills fs a) :
    q.1 ∉ a.map SkillMeta.name := by
  unfold find_plugin_skills at h
  obtain ⟨e, he, heq⟩ := List.mem_filterMap.mp h
  by_cases h1 : e.path.getLast? = some marker
  · rw [if_pos h1] at heq
    by_cases h2 : lastSeg e.path.dropLast ∈ a.map SkillMeta.name
    · rw [if_pos h2] at heq; cases heq
    · rw [if_neg h2] at heq
      cases heq
      exact h2
  · rw [if_neg h1] at heq; cases heq

theorem structure_targets_map (fs : FS) (l : List Entry) :
    (l.filterMap (structurePlacement fs)).map Placement.target
      = (l.filter (fun e => (detectSkill fs e).isSome)).map
          (fun e => officialRoot ++ e.path.drop 1) := by
  induction l with
  | nil => rfl
  | cons a l ih =>
    cases h : detectSkill fs a with
    | none =>
      simp [List.filterMap_cons, List.filter_cons, structurePlacement, h, ih]
    | some src =>
      simp [List.filterMap_cons, List.filter_cons, structurePlacement, h, ih]

theorem lastSeg_concat (l : List String) (a : String) : lastSeg (l ++ [a]) = a := by
  simp [lastSeg]

theorem structure_targets_nodup (fs : FS) (hwf : fs.WF) :
    ((structurePass fs).map Placement.target).Nodup := by
  unfold structurePass
  rw [structure_targets_map]
  apply List.Nodup.map_on
  · intro x hx y hy hxy
    have hx2 := mem_underDir.mp (List.mem_filter.mp hx).1
    have hy2 := mem_underDir.mp (List.mem_filter.mp hy).1
    obtain ⟨tx, hpx⟩ := cons_of_take_one hx2.2.1
    obtain ⟨ty, hpy⟩ := cons_of_take_one hy2.2.1
    have hdrop : x.path.drop 1 = y.path.drop 1 := List.append_cancel_left hxy
    rw [hpx, hpy] at hdrop
    simp at hdrop
    have hpath : x.path = y.path := by rw [hpx, hpy, hdrop]
    exact List.inj_on_of_nodup_map hwf.1 hx2.1 hy2.1 hpath
  · have h1 : (fs.underDir skillsRoot).Nodup := by
      unfold FS.underDir
      exact (hwf.1.of_map Entry.path).filter _
    exact h1.filter _

theorem plugin_targets_nodup (fs : FS) (a : List SkillMeta)
    (hnames : ((find_plugin_skills fs a).map Prod.fst).Nodup) :
    (((find_plugin_skills fs a).map (pluginPlacement fs)).map
        Placement.target).Nodup := by
  rw [List.map_map]
  have heq : (Placement.target ∘ pluginPlacement fs)
      = (fun n => officialRoot ++ ["plugins", n]) ∘ Prod.fst := rfl
  rw [heq, ← List.map_map]
  apply List.Nodup.map ?_ hnames
  intro u v huv
  have := List.append_cancel_left huv
  simpa using this

theorem structure_plugin_targets_disjoint (fs : FS) :
    ((structurePass fs).map Placement.target).Disjoint
      (((find_plugin_skills fs ((structurePass fs).map Placement.minfo)).map
          (pluginPlacement fs)).map Placement.target) := by
  intro t ht1 ht2
  obtain ⟨plc, hplc, rfl⟩ := List.mem_map.mp ht1
  obtain ⟨plc2, hplc2, htgt⟩ := List.mem_map.mp ht2
  obtain ⟨q, hq, rfl⟩ := List.mem_map.mp hplc2
  have hplcMem := hplc
  unfold structurePass at hplc
  obtain ⟨x, hxu, hxp⟩ := List.mem_filterMap.mp hplc
  cases hdet : detectSkill fs x with
  | none => rw [structurePlacement, hdet] at hxp; cases hxp
  | some src =>
    obtain rfl : plc = _ := (Option.some.inj ((structurePlacement_eq hdet) ▸ hxp)).symm
    have hxinfo := mem_underDir.mp hxu
    obtain ⟨tx, hpx⟩ := cons_of_take_one hxinfo.2.1
    have htgt2 : officialRoot ++ ["plugins", q.1]
        = officialRoot ++ x.path.drop 1 := htgt
    have hdrop : (["plugins", q.1] : Path) = x.path.drop 1 :=
      List.append_cancel_left htgt2
    rw [hpx] at hdrop
    simp at hdrop
    have hxpath : x.path = ["skills", "plugins", q.1] := by
      rw [hpx, ← hdrop]
    have hname : lastSeg x.path = q.1 := by rw [hxpath]; rfl
    have hmemname : q.1 ∈ ((structurePass fs).map Placement.minfo).map
        SkillMeta.name := by
      rw [← hname]
      exact List.mem_map_of_mem SkillMeta.name
        (List.mem_map_of_mem Placement.minfo hplcMem)
    exact find_plugin_name_not_synced hq hmemname

/-! Claim theorems. -/

/-- C2 counterexample: on `fsB` two plugin skills share the name `foo`, so
the attribution document records 2 synced skills (and a 2-element skills
list) while only one skill directory is actually created. -/
theorem c2_counterexample :
    (create_attribution_file (syncMetadata
        (sync_skills_preserve_structure fsB))).synced_skills = 2
      ∧ (create_attribution_file (syncMetadata
          (sync_skills_preserve_structure fsB))).skills.length = 2
      ∧ ((createdDirs (sync_skills_preserve_structure fsB)).dedup).length = 1
      ∧ (2 : Nat) ≠ 1 := by
  refine ⟨by decide, by decide, by decide, by decide⟩

/-- C2 (amended): `synced_skills` equals the length of the `skills` list
and equals the number of skill placements performed; this also equals the
number of distinct skill directories created provided the supplemental
plugin skills carry pairwise-distinct names (with a duplicate plugin name,
several metadata entries describe one and the same created directory). -/
theorem c2_amended (fs : FS) (hwf : fs.WF)
    (hsk : fs.pathExists skillsRoot = true)
    (hnames : ((find_plugin_skills fs
        ((structurePass fs).map Placement.minfo)).map Prod.fst).Nodup) :
    (create_attribution_file (syncMetadata
        (sync_skills_preserve_structure fs))).synced_skills
      = (create_attribution_file (syncMetadata
          (sync_skills_preserve_structure fs))).skills.length
    ∧ (create_attribution_file (syncMetadata
        (sync_skills_preserve_structure fs))).synced_skills
      = syncCount (sync_skills_preserve_structure fs)
    ∧ ((createdDirs (sync_skills_preserve_structure fs)).dedup).length
      = syncCount (sync_skills_preserve_structure fs) := by
  refine ⟨rfl, ?_, ?_⟩
  · simp [create_attribution_file, syncMetadata, syncCount]
  · have hnodup : (createdDirs (sync_skills_preserve_structure fs)).Nodup := by
      rw [sync_eq_of_skills_exists hsk]
      unfold createdDirs
      rw [List.map_append]
      exact List.Nodup.append (structure_targets_nodup fs hwf)
        (plugin_targets_nodup fs _ hnames)
        (structure_plugin_targets_disjoint fs)
    rw [List.dedup_eq_self.mpr hnodup]
    simp [createdDirs, syncCount]

/-- C2 witness: the amended equalities hold on the concrete tree `fsA`. -/
theorem c2_amended_witness :
    fsA.WF
      ∧ ((createdDirs (sync_skills_preserve_structure fsA)).dedup).length
          = syncCount (sync_skills_preserve_structure fsA) :=
  ⟨by decide, (c2_amended fsA (by decide) (by decide) (by decide)).2.2⟩


/-- C1: every directory entry walked below the organizational root that
contains the marker file directly, or is a symlink whose resolved target
contains the marker file, yields a skill placement at the identical
relative path under the output sub-root, with the marker file copied
into it. -/
theorem c1 (fs : FS) (hwf : fs.WF) (e : Entry) (he : e ∈ fs.entries)
    (hin : e.path.take 1 = skillsRoot) (hne : e.path ≠ skillsRoot)
    (hskill : (e.kind = EKind.dir ∧ fs.pathExists (e.path ++ [marker]) = true)
       ∨ (∃ t, e.kind = EKind.link (some t)
            ∧ fs.pathExists (t ++ [marker]) = true)) :
    (officialRoot ++ e.path.drop 1)
        ∈ createdDirs (sync_skills_preserve_structure fs)
      ∧ ∃ s, (s, officialRoot ++ e.path.drop 1 ++ [marker])
          ∈ copiedFiles (sync_skills_preserve_structure fs) := by
  obtain ⟨hnd, hparent, hmk⟩ := hwf
  have hdet : ∃ src, detectSkill fs e = some src := by
    rcases hskill with ⟨hk, hex⟩ | ⟨t, hk, hex⟩
    · exact ⟨e.path, by simp [detectSkill, hk, hex]⟩
    · obtain ⟨e1, he1, hp1⟩ := pathExists_mem hex
      have hrt := hparent e1 he1
      rw [hp1, List.dropLast_concat] at hrt
      exact ⟨t, by simp [detectSkill, hk, hrt, hex]⟩
  obtain ⟨src, hdet⟩ := hdet
  have hplc := structurePlacement_eq hdet
  have hu : e ∈ fs.underDir skillsRoot := mem_underDir.mpr ⟨he, hin, hne⟩
  have hmem : ({ target := officialRoot ++ e.path.drop 1
                 copies := copyFilesFrom fs src (officialRoot ++ e.path.drop 1)
                 minfo := { path := joinPath (e.path.drop 1)
                            name := lastSeg e.path
                            category := parentStr (e.path.drop 1)
                            source := some (joinPath src) } } : Placement)
      ∈ structurePass fs := by
    unfold structurePass
    exact List.mem_filterMap.mpr ⟨e, hu, hplc⟩
  have hlen : 2 ≤ e.path.length := by
    obtain ⟨t0, hp0⟩ := cons_of_take_one hin
    cases t0 with
    | nil => exact absurd (by rw [hp0]; rfl) hne
    | cons b t1 => rw [hp0]; simp [List.length_cons]
  have hdir1 : fs.isRealDir (e.path.take 1) = true :=
    wf_take_dir fs hparent e.path.length e he le_rfl 1 (by omega)
  have hsk : fs.pathExists skillsRoot = true := by
    rw [← hin]; exact pathExists_of_isRealDir hnd hdir1
  rw [sync_eq_of_skills_exists hsk]
  constructor
  · exact List.mem_map_of_mem Placement.target (List.mem_append_left _ hmem)
  · exact ⟨src ++ [marker],
      List.mem_flatMap.mpr ⟨_, List.mem_append_left _ hmem,
        List.mem_cons_self _ _⟩⟩

/-- C1 witness: the real skill directory `skills/cat/writer` of `fsA` is
placed at the identical relative path with the marker present. -/
theorem c1_witness :
    fsA.WF
      ∧ ((officialRoot ++ ["cat", "writer"])
            ∈ createdDirs (sync_skills_preserve_structure fsA))
      ∧ ∃ s, (s, officialRoot ++ ["cat", "writer", "SKILL.md"])
          ∈ copiedFiles (sync_skills_preserve_structure fsA) :=
  ⟨by decide,
   (c1 fsA (by decide) ⟨["skills", "cat", "writer"], EKind.dir⟩ (by decide)
      (by decide) (by decide) (Or.inl ⟨rfl, by decide⟩)).1,
   (c1 fsA (by decide) ⟨["skills", "cat", "writer"], EKind.dir⟩ (by decide)
      (by decide) (by decide) (Or.inl ⟨rfl, by decide⟩)).2⟩

/-- C3: a plugin-scan skill whose name was already recorded by the
structure pass is excluded by the supplemental pass, so no placement under
the plugins output sub-path is made for it; and the skipping is only that
of the supplemental pass, not global — on `fsC` the structure pass itself
records two skills with the same name. -/
theorem c3 :
    (∀ (fs : FS) (n : String),
        n ∈ (syncMetadata (structurePass fs)).map SkillMeta.name →
        (officialRoot ++ ["plugins", n]) ∉
          ((find_plugin_skills fs (syncMetadata (structurePass fs))).map
              (pluginPlacement fs)).map Placement.target)
      ∧ (syncMetadata (sync_skills_preserve_structure fsC)).map SkillMeta.name
          = ["tool", "tool"] := by
  refine ⟨?_, by decide⟩
  intro fs n hn hmem
  obtain ⟨plc, hplc, htgt⟩ := List.mem_map.mp hmem
  obtain ⟨q, hq, rfl⟩ := List.mem_map.mp hplc
  have htgt2 : officialRoot ++ ["plugins", q.1] = officialRoot ++ ["plugins", n] :=
    htgt
  have hq1 : q.1 = n := by
    have := List.append_cancel_left htgt2
    simpa using this
  have hnot := find_plugin_name_not_synced hq
  rw [hq1] at hnot
  exact hnot hn

/-- C3 witness: on `fsA`, the name writer is recorded by the structure
pass and no plugins-path placement is produced for it. -/
theorem c3_witness :
    ("writer" ∈ (syncMetadata (structurePass fsA)).map SkillMeta.name)
      ∧ (officialRoot ++ ["plugins", "writer"]) ∉
          ((find_plugin_skills fsA (syncMetadata (structurePass fsA))).map
              (pluginPlacement fsA)).map Placement.target :=
  ⟨by decide, c3.1 fsA ("writer") (by decide)⟩

/-- C4 counterexample: the diagnostic script `inspect_microsoft_repo.py`
(and likewise the coverage script) exits with status 0 on a caught
exception, not 1 as the claim states. -/
theorem c4_counterexample :
    inspect_script_exit (RunOutcome.exn ("boom")) = 0
      ∧ coverage_script_exit (RunOutcome.exn ("boom")) = 0
      ∧ inspect_script_exit (RunOutcome.exn ("boom")) ≠ 1 :=
  ⟨rfl, rfl, by decide⟩

/-- C4 (amended): the sync script exits 0 on success and 1 on any caught
exception; the two diagnostic scripts print the error and trace but exit
with status 0 whether or not an exception was caught. -/
theorem c4_amended :
    sync_script_exit RunOutcome.ok = 0
      ∧ (∀ m, sync_script_exit (RunOutcome.exn m) = 1)
      ∧ (∀ o, inspect_script_exit o = 0)
      ∧ (∀ o, coverage_script_exit o = 0) :=
  ⟨rfl, fun _ => rfl, fun o => by cases o <;> rfl, fun o => by cases o <;> rfl⟩

/-- C5: when the clone step fails, the main function of the sync exits with status 1 and
performs no output-directory mutation at all: no directory is made, no
file copied, no attribution document written. -/
theorem c5 (msg : String) :
    main_sync (Except.error msg)
      = { exitCode := 1, dirsMade := [], copies := [],
          attributionWritten := none } := rfl

/-- C6: applying the copy sequence of the sync is idempotent on the output
state (a second run over the unchanged source rewrites the same bytes),
never deletes a file that is absent upstream, and each written destination
ends up with content independent of the prior output state (unconditional
overwrite). -/
theorem c6 (fs : FS) (o : OutFS) :
    applyCopies (copiedFiles (sync_skills_preserve_structure fs))
        (applyCopies (copiedFiles (sync_skills_preserve_structure fs)) o)
      = applyCopies (copiedFiles (sync_skills_preserve_structure fs)) o
    ∧ (∀ p c, o p = some c →
        ∃ s, applyCopies (copiedFiles (sync_skills_preserve_structure fs)) o p
          = some s)
    ∧ (∀ (o2 : OutFS) p s,
        (s, p) ∈ copiedFiles (sync_skills_preserve_structure fs) →
        applyCopies (copiedFiles (sync_skills_preserve_structure fs)) o p
          = applyCopies (copiedFiles (sync_skills_preserve_structure fs)) o2 p) := by
  refine ⟨?_, ?_, ?_⟩
  · funext p
    cases h : lookupLast (copiedFiles (sync_skills_preserve_structure fs)) p with
    | none => simp [applyCopies, h]
    | some s => simp [applyCopies, h]
  · intro p c hc
    cases h : lookupLast (copiedFiles (sync_skills_preserve_structure fs)) p with
    | none => exact ⟨c, by simp [applyCopies, h, hc]⟩
    | some s => exact ⟨s, by simp [applyCopies, h]⟩
  · intro o2 p s hmem
    have hf : (s, p) ∈ (copiedFiles (sync_skills_preserve_structure fs)).filter
        (fun w => decide (w.2 = p)) :=
      List.mem_filter.mpr ⟨hmem, by simp⟩
    have hne := List.ne_nil_of_mem hf
    rw [← List.getLast?_isSome] at hne
    obtain ⟨x, hx⟩ := Option.isSome_iff_exists.mp hne
    simp [applyCopies, lookupLast, hx]

/-- C6 witness: on the concrete tree `fsA` and an output state holding a
stale file, the no-deletion part of the theorem applies. -/
theorem c6_witness :
    ∃ s, applyCopies (copiedFiles (sync_skills_preserve_structure fsA)) outO
        ["stale.md"] = some s :=
  (c6 fsA outO).2.1 ["stale.md"] ["old"] (by decide)

/-- C7: when the organizational root `skills/` is absent, the sync takes
the flat fallback, and every skill in the flat mapping is placed directly
under the output root by its bare name with category root. -/
theorem c7 (fs : FS) (h : fs.pathExists skillsRoot = false) :
    sync_skills_preserve_structure fs = sync_skills_flat fs
      ∧ ∀ q ∈ find_all_skills fs,
          (officialRoot ++ [q.1])
              ∈ createdDirs (sync_skills_preserve_structure fs)
            ∧ ({ path := q.1, name := q.1, category := "root", source := none }
                  : SkillMeta)
                ∈ syncMetadata (sync_skills_preserve_structure fs) := by
  have h1 : sync_skills_preserve_structure fs = sync_skills_flat fs := by
    unfold sync_skills_preserve_structure
    simp [h]
  refine ⟨h1, ?_⟩
  intro q hq
  rw [h1]
  constructor
  · exact List.mem_map_of_mem Placement.target
      (List.mem_map_of_mem (flatPlacement fs) hq)
  · exact List.mem_map_of_mem Placement.minfo
      (List.mem_map_of_mem (flatPlacement fs) hq)

/-- C7 witness: on the concrete tree `fsD` (no `skills/` directory) the
skill `writer` from `.github/skills/` is placed at the output root with
category root. -/
theorem c7_witness :
    fsD.pathExists skillsRoot = false
      ∧ (officialRoot ++ ["writer"])
          ∈ createdDirs (sync_skills_preserve_structure fsD)
      ∧ ({ path := "writer", name := "writer", category := "root",
           source := none } : SkillMeta)
          ∈ syncMetadata (sync_skills_preserve_structure fsD) :=
  ⟨by decide,
   ((c7 fsD (by decide)).2 ("writer", [".github", "skills", "writer"])
      (by decide)).1,
   ((c7 fsD (by decide)).2 ("writer", [".github", "skills", "writer"])
      (by decide)).2⟩

/-- C8: the per-skill copy step copies the marker file and every other
regular file directly inside the resolved source directory, and nothing
else: every copy it performs moves a direct child of the source directory
to the same single segment directly under the target directory, so no
subdirectory content ever appears in the output directory of the skill. -/
theorem c8 (fs : FS) (src tgt : Path) :
    ((src ++ [marker], tgt ++ [marker]) ∈ copyFilesFrom fs src tgt)
      ∧ (∀ e ∈ fs.childEntries src, fs.entryIsFile e = true →
           e.path.getLast? ≠ some marker →
           (e.path, tgt ++ [lastSeg e.path]) ∈ copyFilesFrom fs src tgt)
      ∧ (∀ w ∈ copyFilesFrom fs src tgt, ∃ n,
           w.1 = src ++ [n] ∧ w.2 = tgt ++ [n]
             ∧ (n = marker ∨
                 ∃ e, e ∈ fs.childEntries src ∧ e.path = src ++ [n]
                   ∧ fs.entryIsFile e = true ∧ n ≠ marker)) := by
  refine ⟨List.mem_cons_self _ _, ?_, ?_⟩
  · intro e he hf hne
    refine List.mem_cons.mpr (Or.inr ?_)
    refine List.mem_map_of_mem _ (List.mem_filter.mpr ⟨he, ?_⟩)
    rw [Bool.and_eq_true]
    exact ⟨decide_eq_true hne, hf⟩
  · intro w hw
    rcases List.mem_cons.mp hw with rfl | htail
    · exact ⟨marker, rfl, rfl, Or.inl rfl⟩
    · obtain ⟨e, hef, rfl⟩ := List.mem_map.mp htail
      have hfil := List.mem_filter.mp hef
      obtain ⟨hne, hf⟩ := Bool.and_eq_true _ _ |>.mp hfil.2
      have hch := mem_childEntries.mp hfil.1
      rcases e.path.eq_nil_or_concat with hnil | ⟨l2, a, hconcat⟩
      · exact absurd hnil hch.2.2
      · rw [List.concat_eq_append] at hconcat
        have hdrop : l2 = src := by
          rw [← hch.2.1, hconcat, List.dropLast_concat]
        subst hdrop
        refine ⟨a, by rw [hconcat], ?_, Or.inr ⟨e, hfil.1, hconcat, hf, ?_⟩⟩
        · have : lastSeg e.path = a := by
            rw [hconcat]; simp [lastSeg]
          rw [this]
        · intro haM
          rw [hconcat, haM] at hne
          simp [List.getLast?_concat] at hne

/-- C8 witness: in `fsA` the sibling regular file `notes.md` of the
`writer` skill is copied to the single segment below the target. -/
theorem c8_witness :
    ((⟨["skills", "cat", "writer", "notes.md"], EKind.file⟩ : Entry)
        ∈ fsA.childEntries ["skills", "cat", "writer"])
      ∧ ((["skills", "cat", "writer", "notes.md"],
           officialRoot ++ ["cat", "writer", "notes.md"])
          ∈ copyFilesFrom fsA ["skills", "cat", "writer"]
              (officialRoot ++ ["cat", "writer"])) :=
  ⟨by decide,
   (c8 fsA ["skills", "cat", "writer"] (officialRoot ++ ["cat", "writer"])).2.1
     ⟨["skills", "cat", "writer", "notes.md"], EKind.file⟩
     (by decide) (by decide) (by decide)⟩

/-- C9: the name recorded for a structure-pass placement is the base name
of the own path of the walked entry (never of its resolved target); on the
concrete tree `fsE`, the plugin directory `realname` symlinked into
`skills/cat/` as `alias` is therefore copied twice — once at its
structural path, once under the plugins sub-path — from the same source. -/
theorem c9 :
    (∀ (fs : FS) (e : Entry),
        ((structurePlacement fs e).map (fun plc => plc.minfo.name)).getD
            (lastSeg e.path)
          = lastSeg e.path)
      ∧ createdDirs (sync_skills_preserve_structure fsE)
          = [officialRoot ++ ["cat", "alias"],
             officialRoot ++ ["plugins", "realname"]]
      ∧ copiedFiles (sync_skills_preserve_structure fsE)
          = [([".github", "plugins", "x", "realname", "SKILL.md"],
              officialRoot ++ ["cat", "alias", "SKILL.md"]),
             ([".github", "plugins", "x", "realname", "SKILL.md"],
              officialRoot ++ ["plugins", "realname", "SKILL.md"])]
      ∧ (syncMetadata (sync_skills_preserve_structure fsE)).map SkillMeta.name
          = ["alias", "realname"] := by
  refine ⟨?_, by decide, by decide, by decide⟩
  intro fs e
  cases h : detectSkill fs e with
  | none => simp [structurePlacement, h]
  | some src => simp [structurePlacement, h]

/-- C10: a skill located at depth one under the organizational root gets
the category string of one dot (the string form of the parent of the relative path), which is neither the string root nor the empty string; the
concrete tree `fsF` exhibits it. -/
theorem c10 :
    (∀ (fs : FS) (n : String) (k : EKind),
        ((structurePlacement fs ⟨["skills", n], k⟩).map
            (fun plc => plc.minfo.category)).getD (".") = ("."))
      ∧ (syncMetadata (sync_skills_preserve_structure fsF)).map
          SkillMeta.category = [(".")]
      ∧ ((".") : String) ≠ "root" ∧ ((".") : String) ≠ "" := by
  refine ⟨?_, by decide, by decide, by decide⟩
  intro fs n k
  cases h : detectSkill fs ⟨["skills", n], k⟩ with
  | none => simp [structurePlacement, h]
  | some src => simp [structurePlacement, h, parentStr]

end MsSync
